import Mathlib

/-!
Shallow embedding of the `gurl` email crawler (Go) for specification checking.

Source layout:
- crawler package (`internal/crawler`): recursive depth-first crawl engine
  (`Crawl`, `crawlRecursive`, `isContactLink`, `parseMetaRefresh`, `resolveURL`).
- cache package (`internal/cache`): Redis-backed result cache
  (`generateKey`, `Get`, `Set`, `DeduplicateEmails`).
- jobs package (`internal/jobs`): job queue (`Enqueue`, `Dequeue`, `GetJob`,
  `UpdateJob`, `CompleteJob`, `FailJob`, `CancelJob`) and the worker pool's
  webhook delivery loop (`sendWebhook`).

External collaborators (net/http, goquery HTML parsing, net/url parsing,
crypto/sha256, Redis, clocks, uuids) are modelled as parameters: the web is a
partial map from URL strings to parsed pages, URL resolution is a parameter
function, the hash is a parameter function, time stamps are `Nat` parameters.
Everything else is translated directly from the Go source.
-/

/-! ## String helpers (models of Go `strings` functions, ASCII case mapping) -/

/-- Model of `strings.HasPrefix` on character lists. -/
def hasPrefixChars : List Char → List Char → Bool
  | _, [] => true
  | [], _ :: _ => false
  | a :: as, b :: bs => a == b && hasPrefixChars as bs

/-- Helper for `strings.Contains`: does `sub` occur inside the list? -/
def containsChars (sub : List Char) : List Char → Bool
  | [] => sub.isEmpty
  | c :: t => hasPrefixChars (c :: t) sub || containsChars sub t

/-- Model of Go `strings.Contains s sub`. -/
def goContains (s sub : String) : Bool :=
  containsChars sub.data s.data

/-- Model of Go `strings.HasPrefix s pre`. -/
def goHasPrefix (s pre : String) : Bool :=
  hasPrefixChars s.data pre.data

/-- Model of Go `strings.ToLower` (ASCII letters; `Char.toLower` maps only
`A`-`Z`, matching Go behaviour on the ASCII inputs the claims concern). -/
def goToLower (s : String) : String :=
  ⟨s.data.map Char.toLower⟩

/-- Model of Go `strings.TrimSpace` (ASCII whitespace, computable by the
kernel): drop leading and trailing whitespace characters. -/
def goTrim (s : String) : String :=
  ⟨(((s.data.dropWhile fun c => c.isWhitespace).reverse.dropWhile
      fun c => c.isWhitespace)).reverse⟩

/-- Model of the Go slice `s[n:]` for ASCII prefixes: drop `n` characters. -/
def goDrop (s : String) (n : Nat) : String :=
  ⟨s.data.drop n⟩

/-- Helper for `strings.Split(s, ";")`: split at every separator, keeping
empty pieces. -/
def splitOnCharAux (sep : Char) : List Char → List Char → List (List Char)
  | [], acc => [acc.reverse]
  | c :: rest, acc =>
    if c = sep then acc.reverse :: splitOnCharAux sep rest []
    else splitOnCharAux sep rest (c :: acc)

/-- Model of Go `strings.Split(s, ";")`. -/
def goSplitSemicolons (s : String) : List String :=
  (splitOnCharAux ';' s.data []).map fun l => ⟨l⟩

/-- Model of `strings.TrimSuffix s "/"`: drop one trailing slash if present. -/
def trimSuffixSlashChars (l : List Char) : List Char :=
  if l.getLast? = some '/' then l.dropLast else l

/-! ## URLs

Go's `net/url` is an external library.  A `GoURL` is the parsed form
(`url.URL`); `GoURL.toString` models `URL.String()` for ordinary
scheme://host URLs, which is how the crawler keys its visited set and
the network addresses pages. -/

structure GoURL where
  Scheme : String
  User : String
  Host : String
  Path : String
  RawQuery : String
  Fragment : String
deriving DecidableEq, Repr

/-- Model of `url.URL.String()` for scheme://[userinfo@]host/path?query#fragment. -/
def GoURL.toString (u : GoURL) : String :=
  u.Scheme ++ "://" ++ (if u.User = "" then "" else u.User ++ "@") ++ u.Host ++ u.Path
    ++ (if u.RawQuery = "" then "" else "?" ++ u.RawQuery)
    ++ (if u.Fragment = "" then "" else "#" ++ u.Fragment)

/-- Normalized URL from `cache.generateKey` and the spec glossary:
`strings.ToLower(parsedURL.Host) + parsedURL.Path` with one trailing slash
trimmed (`strings.TrimSuffix(normalizedURL, "/")`). -/
def normalizedURL (u : GoURL) : String :=
  ⟨trimSuffixSlashChars ((goToLower u.Host).data ++ u.Path.data)⟩

/-! ## Crawl engine (`internal/crawler`) -/

/-- The `contactKeywords` table from the crawler source, verbatim. -/
def contactKeywords : List String :=
  [ "contact", "contacto", "about", "info", "acerca", "informacion", "información",
    "equipo", "team", "nosotros", "empresa", "quienes-somos",
    "contact-us", "about-us", "team", "support", "help", "reach", "get-in-touch",
    "who-we-are", "our-team", "meet-team", "staff", "office", "headquarters",
    "nous-contacter", "au-sujet", "à-propos", "propos", "équipe", "qui-sommes-nous",
    "notre-équipe", "mentions-legales", "aide", "assistance", "bureau",
    "kontakt", "kontaktiere", "kontaktieren", "über-uns", "über", "ueber",
    "impressum", "team", "unser-team", "wir", "firma", "unternehmen",
    "hilfe", "unterstützung", "büro",
    "contatti", "chi-siamo", "su-di-noi", "squadra", "team", "ufficio",
    "informazioni", "aiuto", "supporto", "sede",
    "contato", "sobre", "sobre-nos", "equipe", "time", "quem-somos",
    "informacoes", "ajuda", "suporte", "escritorio",
    "staff", "people", "directory", "location", "address", "phone", "email",
    "reach-us", "get-help", "customer-service", "atendimento", "servicio-cliente" ]

/-- `Crawler.isContactLink`: case-insensitive substring match of the path
against the keyword table. -/
def isContactLink (path : String) : Bool :=
  let lowerPath := goToLower path
  contactKeywords.any fun keyword => goContains lowerPath keyword

/-- Inner loop of `parseMetaRefresh`: scan the `;`-separated parts after the
first one for a `url=` item whose target resolves. -/
def scanRefreshParts (resolve : String → Option GoURL) : List String → Option GoURL
  | [] => none
  | part :: rest =>
    let p := goTrim part
    if goHasPrefix (goToLower p) "url=" then
      match resolve (goTrim (goDrop p 4)) with
      | some redirectURL => some redirectURL
      | none => scanRefreshParts resolve rest
    else scanRefreshParts resolve rest

/-- `Crawler.parseMetaRefresh`: parse content such as `0; url=https://x/y`.
`resolve` models `base.Parse` from `net/url`. -/
def parseMetaRefresh (resolve : String → Option GoURL) (content : String) : Option GoURL :=
  match goSplitSemicolons content with
  | [] => none
  | [_] => none
  | _ :: rest => scanRefreshParts resolve rest

/-- A fetched and parsed page, the output of the fetch collaborator
(http.Get + goquery): the meta-refresh `content` attribute (empty when the
page has none), the email-regex matches found in the body text, and the
`href` attributes of anchors. A fetch error, a non-200 status and an HTML
parse error are all `none` in the web map. -/
structure Page where
  MetaRefresh : String
  Emails : List String
  Hrefs : List String
deriving DecidableEq, Repr

/-- Mutable state of one `Crawler` value: the visited set keyed by
`u.String()`, the accumulated lower-cased email set, and (instrumenting the
`log.Printf("Crawling [Depth: %d]: %s", ...)` line) the ordered fetch trace
with the depth of each fetch. -/
structure CrawlState where
  visited : List String
  emails : List String
  trace : List (GoURL × Nat)
deriving DecidableEq, Repr

/-- Insertion into the crawler's `emails` map: each regex match is
lower-cased and added to the set. -/
def addEmails (es : List String) (found : List String) : List String :=
  found.foldl (fun acc e =>
    let le := goToLower e
    if le ∈ acc then acc else acc ++ [le]) es

/-- `Crawler.crawlRecursive`, translated step by step from the source with a
fuel argument for termination (Go recursion terminates because the visited
set grows; every claim proved below holds for all fuel values).
`web` models `http.Get` + goquery parsing keyed by `u.String()`;
`resolve` models `Crawler.resolveURL`, i.e. `base.Parse(href)`. -/
def crawlRecursive (web : String → Option Page) (resolve : GoURL → String → Option GoURL)
    (base : GoURL) (maxDepth : Nat) : Nat → CrawlState → GoURL → Nat → CrawlState
  | 0, st, _, _ => st
  | fuel + 1, st, u, depth =>
    if depth > maxDepth ∨ u.toString ∈ st.visited ∨ u.Host ≠ base.Host then st
    else
      let st1 : CrawlState :=
        ⟨u.toString :: st.visited, st.emails, st.trace ++ [(u, depth)]⟩
      match web u.toString with
      | none => st1
      | some page =>
        match (if page.MetaRefresh ≠ "" then parseMetaRefresh (resolve u) page.MetaRefresh else none) with
        | some redirectURL => crawlRecursive web resolve base maxDepth fuel st1 redirectURL depth
        | none =>
          let st2 : CrawlState := ⟨st1.visited, addEmails st1.emails page.Emails, st1.trace⟩
          page.Hrefs.foldl (fun s href =>
            match resolve u href with
            | none => s
            | some nextURL =>
              crawlRecursive web resolve base maxDepth fuel s nextURL
                (if isContactLink nextURL.Path then depth else depth + 1)) st2

/-- `Crawler.Crawl`: set the base URL and start the recursion at depth 0 with
fresh visited/email sets. -/
def Crawl (web : String → Option Page) (resolve : GoURL → String → Option GoURL)
    (maxDepth fuel : Nat) (startURL : GoURL) : CrawlState :=
  crawlRecursive web resolve startURL maxDepth fuel ⟨[], [], []⟩ startURL 0

/-! ## Result cache (`internal/cache`)

Redis and `encoding/json` are external: the backing store is an association
list keyed by the generated key string, newest binding first (a later `SET`
on the same key shadows the older one, as in Redis).  `crypto/sha256` with
the `%x` hex rendering is the parameter `hash`; the claims that need it
assume it is injective (collision resistance). -/

/-- Nested `crawl_info` record of `cache.CachedResult`. -/
structure CrawlInfo where
  Depth : Nat
  PagesVisited : Nat
deriving DecidableEq, Repr

/-- `cache.CachedResult` (the JSON timestamp is modelled as a `Nat`). -/
structure CachedResult where
  Emails : List String
  Timestamp : Nat
  CrawlInfo : CrawlInfo
deriving DecidableEq, Repr

/-- The Redis keyspace visible to the cache manager. -/
def CacheStore : Type := List (String × CachedResult)

/-- First-match lookup in the store (models Redis `GET`). -/
def storeLookup : List (String × CachedResult) → String → Option CachedResult
  | [], _ => none
  | (k, v) :: rest, key => if k = key then some v else storeLookup rest key

/-- `CacheManager.generateKey` on a parsed URL: normalize to
`lowercase(host) + path` with the trailing slash trimmed, then hash and
prefix.  URL parsing itself is `net/url` (external); the fallback branch for
unparseable raw URLs is therefore not represented. -/
def generateKey (hash : String → String) (u : GoURL) : String :=
  "crawler:emails:" ++ hash (normalizedURL u)

/-- `CacheManager.DeduplicateEmails`: when the dedup toggle is off, return
the input unchanged; otherwise normalize each email by lower-casing and
trimming, insert the non-empty results into a uniqueness set, and sort.
(Go iterates the set in unspecified order before `sort.Strings`; the sorted
output is order-independent, so the set is modelled as first-insertion
order.)  `dedupInsert` is the body of the collection loop: normalize one
email by lower-casing and trimming and insert it into the uniqueness set
when it is non-empty. -/
def dedupInsert (acc : List String) (email : String) : List String :=
  let normalizedEmail := goTrim (goToLower email)
  if normalizedEmail ≠ "" ∧ normalizedEmail ∉ acc then acc ++ [normalizedEmail] else acc

/-- `CacheManager.DeduplicateEmails`, continued: fold the inputs through
`dedupInsert` and sort the resulting uniqueness set. -/
def DeduplicateEmails (dedupFlag : Bool) (emails : List String) : List String :=
  if !dedupFlag then emails
  else (emails.foldl dedupInsert []).insertionSort (· ≤ ·)

/-- `CacheManager.Get` for a parseable URL: disabled cache always misses;
otherwise look the generated key up. -/
def cacheGet (hash : String → String) (enabled : Bool)
    (store : List (String × CachedResult)) (u : GoURL) : Option CachedResult :=
  if !enabled then none
  else storeLookup store (generateKey hash u)

/-- `CacheManager.Set` for a parseable URL: disabled cache is a no-op write;
otherwise deduplicate the emails, build the `CachedResult` and bind it to
the generated key (shadowing any previous binding). -/
def cacheSet (hash : String → String) (enabled dedupFlag : Bool)
    (store : List (String × CachedResult)) (u : GoURL) (emails : List String)
    (depth pagesVisited : Nat) (t : Nat) : List (String × CachedResult) :=
  if !enabled then store
  else (generateKey hash u, ⟨DeduplicateEmails dedupFlag emails, t, ⟨depth, pagesVisited⟩⟩) :: store

/-! ## Job store (`internal/jobs`)

Redis primitives are modelled directly: the job records are an association
list (`SET` on `crawler:job:` keys, newest first), the queue is a list with
`LPush` prepending and `BRPop` taking from the end, the active set is a
list with set semantics.  `time.Now()` values and freshly generated uuids
are parameters. -/

inductive JobStatus where
  | queued
  | processing
  | completed
  | failed
  | cancelled
deriving DecidableEq, Repr

/-- `jobs.ScanJob` (timestamps as `Nat`). -/
structure ScanJob where
  ID : String
  URL : String
  WebhookURL : String
  CallbackID : String
  Status : JobStatus
  CreatedAt : Nat
  StartedAt : Option Nat
  CompletedAt : Option Nat
  CrawlTime : String
  Error : String
  Emails : List String
  PagesVisited : Nat
deriving DecidableEq, Repr

/-- The Redis state owned by `jobs.Queue`: job records, the
`crawler:job_queue` list and the `crawler:active_jobs` set. -/
structure StoreState where
  jobs : List (String × ScanJob)
  queue : List String
  active : List String
deriving DecidableEq, Repr

/-- First-match lookup among the job records (models `GET crawler:job:id`,
i.e. `Queue.GetJob`). -/
def lookupJob : List (String × ScanJob) → String → Option ScanJob
  | [], _ => none
  | (k, v) :: rest, id => if k = id then some v else lookupJob rest id

/-- Models `SET crawler:job:id`, i.e. `Queue.UpdateJob`: the new binding
shadows any previous one. -/
def putJob (jobs : List (String × ScanJob)) (job : ScanJob) : List (String × ScanJob) :=
  (job.ID, job) :: jobs

/-- Models `SADD`: add if absent. -/
def setAdd (l : List String) (x : String) : List String :=
  if x ∈ l then l else x :: l

/-- Models `SREM` and `LREM key 0`: remove every occurrence. -/
def removeAll (l : List String) (x : String) : List String :=
  l.filter (fun y => y ≠ x)

/-- `Queue.Enqueue`: build a queued job with the generated id, store it,
`LPush` its id onto the queue, `SAdd` it to the active set. -/
def Enqueue (s : StoreState) (id url webhookURL callbackID : String) (t : Nat) :
    ScanJob × StoreState :=
  let job : ScanJob :=
    ⟨id, url, webhookURL, callbackID, .queued, t, none, none, "", "", [], 0⟩
  (job, ⟨putJob s.jobs job, id :: s.queue, setAdd s.active id⟩)

/-- `Queue.Dequeue`: `BRPop` from the queue end; on timeout return none; on a
popped id fetch the record (a missing record is the error return, with the
pop already consumed), stamp `processing` and `started_at`, and update. -/
def Dequeue (s : StoreState) (t : Nat) : Option ScanJob × StoreState :=
  match s.queue.getLast? with
  | none => (none, s)
  | some jobID =>
    let s1 : StoreState := ⟨s.jobs, s.queue.dropLast, s.active⟩
    match lookupJob s.jobs jobID with
    | none => (none, s1)
    | some job =>
      let job' : ScanJob := { job with Status := .processing, StartedAt := some t }
      (some job', ⟨putJob s1.jobs job', s1.queue, s1.active⟩)

/-- `Queue.CompleteJob`: stamp `completed`, `completed_at` and the results on
the caller-supplied job value, update the record, `SRem` the id from the
active set. -/
def CompleteJob (s : StoreState) (job : ScanJob) (emails : List String)
    (pagesVisited : Nat) (crawlTime : String) (t : Nat) : StoreState :=
  let job' : ScanJob :=
    { job with Status := .completed, CompletedAt := some t, Emails := emails,
               PagesVisited := pagesVisited, CrawlTime := crawlTime }
  ⟨putJob s.jobs job', s.queue, removeAll s.active job.ID⟩

/-- `Queue.FailJob`: stamp `failed`, `completed_at` and the error message,
update the record, `SRem` the id from the active set. -/
def FailJob (s : StoreState) (job : ScanJob) (errorMsg : String) (t : Nat) : StoreState :=
  let job' : ScanJob :=
    { job with Status := .failed, CompletedAt := some t, Error := errorMsg }
  ⟨putJob s.jobs job', s.queue, removeAll s.active job.ID⟩

/-- `Queue.CancelJob`: error when the record is missing or currently
`processing` (leaving the store untouched); otherwise stamp `cancelled` and
`completed_at`, update the record, `LRem` the id from the queue and `SRem`
it from the active set.  The first component is the returned error. -/
def CancelJob (s : StoreState) (jobID : String) (t : Nat) : Option String × StoreState :=
  match lookupJob s.jobs jobID with
  | none => (some "job not found", s)
  | some job =>
    if job.Status = .processing then
      (some "cannot cancel job that is currently processing", s)
    else
      let job' : ScanJob := { job with Status := .cancelled, CompletedAt := some t }
      (none, ⟨putJob s.jobs job', removeAll s.queue jobID, removeAll s.active jobID⟩)

/-- One atomic job-store operation, as issued by the HTTP handlers and the
worker pipeline: enqueue under a fresh uuid; dequeue; complete or fail the
record the worker holds from its dequeue (still stored, still
`processing`); cancel any id.  `UpdateJob` is the internal write primitive
of these five operations, not a public transition of its own. -/
inductive Step : StoreState → StoreState → Prop where
  | enqueue (s : StoreState) (id url webhookURL callbackID : String) (t : Nat)
      (hfresh : lookupJob s.jobs id = none) :
      Step s (Enqueue s id url webhookURL callbackID t).2
  | dequeue (s : StoreState) (t : Nat) :
      Step s (Dequeue s t).2
  | complete (s : StoreState) (job : ScanJob) (emails : List String)
      (pagesVisited : Nat) (crawlTime : String) (t : Nat)
      (hstored : lookupJob s.jobs job.ID = some job)
      (hproc : job.Status = .processing) :
      Step s (CompleteJob s job emails pagesVisited crawlTime t)
  | fail (s : StoreState) (job : ScanJob) (errorMsg : String) (t : Nat)
      (hstored : lookupJob s.jobs job.ID = some job)
      (hproc : job.Status = .processing) :
      Step s (FailJob s job errorMsg t)
  | cancel (s : StoreState) (jobID : String) (t : Nat) :
      Step s (CancelJob s jobID t).2

/-- Store sanity invariant: every record is keyed by its own job id
(as `Enqueue`/`UpdateJob` always write `crawler:job:` + `job.ID`), ids sit
in the work queue at most once, and every queued id is stored with status
`queued`.  Established by the empty store and `Enqueue`, maintained by
every operation. -/
def StoreInv (s : StoreState) : Prop :=
  (∀ id j, lookupJob s.jobs id = some j → j.ID = id) ∧
  s.queue.Nodup ∧
  ∀ id ∈ s.queue, ∃ j, lookupJob s.jobs id = some j ∧ j.Status = .queued

/-- Status transitions realized by the job store: stutter,
`queued → processing` (dequeue), `processing → completed`,
`processing → failed`, and `CancelJob` moving any non-`processing` status to
`cancelled`. -/
def allowedTransition (a b : JobStatus) : Prop :=
  a = b ∨ (a = .queued ∧ b = .processing) ∨ (a = .processing ∧ b = .completed) ∨
    (a = .processing ∧ b = .failed) ∨ (a ≠ .processing ∧ b = .cancelled)

/-! ## Webhook dispatcher (`WorkerPool.sendWebhook`) -/

/-- Outcome of one webhook POST: a transport error or an HTTP status. -/
inductive WebhookResp where
  | transportErr
  | status (code : Nat)
deriving DecidableEq, Repr

/-- Instrumented record of a delivery run: the attempt numbers actually
sent, the sleeps (in seconds) performed between attempts, and whether a 2xx
response was obtained. -/
structure WebhookLog where
  attempts : List Nat
  sleeps : List Nat
  delivered : Bool
deriving DecidableEq, Repr

/-- The `for attempt := 1; attempt <= retries; attempt++` loop of
`sendWebhook`.  `resp` models the endpoint; a non-2xx status or transport
error is retried after `time.Sleep(attempt * 2 * time.Second)` unless the
attempt budget is exhausted.  Fuel counts the remaining loop iterations. -/
def sendWebhookLoop (resp : Nat → WebhookResp) (retries : Nat) :
    Nat → Nat → WebhookLog
  | 0, _ => ⟨[], [], false⟩
  | fuel + 1, attempt =>
    if attempt > retries then ⟨[], [], false⟩
    else
      match resp attempt with
      | .transportErr =>
        if attempt = retries then ⟨[attempt], [], false⟩
        else
          let rest := sendWebhookLoop resp retries fuel (attempt + 1)
          ⟨attempt :: rest.attempts, attempt * 2 :: rest.sleeps, rest.delivered⟩
      | .status code =>
        if 200 ≤ code ∧ code < 300 then ⟨[attempt], [], true⟩
        else if attempt = retries then ⟨[attempt], [], false⟩
        else
          let rest := sendWebhookLoop resp retries fuel (attempt + 1)
          ⟨attempt :: rest.attempts, attempt * 2 :: rest.sleeps, rest.delivered⟩

/-- `WorkerPool.sendWebhook`: a job without a webhook URL is skipped
entirely; otherwise run the retry loop from attempt 1.  The function only
performs HTTP calls and logging: it receives no job store and returns only
the delivery log, so no job record, status or queue is ever modified. -/
def sendWebhook (resp : Nat → WebhookResp) (retries : Nat) (webhookURL : String) : WebhookLog :=
  if webhookURL = "" then ⟨[], [], false⟩
  else sendWebhookLoop resp retries retries 1

/-- A failed delivery attempt: transport error or non-2xx status. -/
def failedAttempt : WebhookResp → Prop
  | .transportErr => True
  | .status code => code < 200 ∨ 300 ≤ code

/-! ## Further definitions used by the statements -/

/-- The URL strings of the fetch trace, in fetch order. -/
def traceStrings (st : CrawlState) : List String :=
  st.trace.map fun p => p.1.toString

/-- A chain of pure meta-refresh redirects through `us` ending at `v`: each
URL in `us` fetches to a page whose meta-refresh content parses and resolves
to the next URL of the chain (the last one to `v`). -/
def chainSteps (web : String → Option Page) (resolve : GoURL → String → Option GoURL) :
    List GoURL → GoURL → Prop
  | [], _ => True
  | w :: rest, v =>
    (∃ p, web w.toString = some p ∧ p.MetaRefresh ≠ "" ∧
      parseMetaRefresh (resolve w) p.MetaRefresh = some (rest.headD v)) ∧
    chainSteps web resolve rest v

/-- The crawl state after marking every URL of `us` visited and tracing each
of them at depth `depth`, in order. -/
def pushVisits (st : CrawlState) (us : List GoURL) (depth : Nat) : CrawlState :=
  ⟨(us.map GoURL.toString).reverse ++ st.visited, st.emails,
    st.trace ++ us.map fun w => (w, depth)⟩

/-! ## Concrete fixtures -/

/-- Start URL of a one-page site. -/
def uC1 : GoURL := ⟨"http", "", "example.com", "/", "", ""⟩

/-- A one-page web serving only the start URL. -/
def webC1 : String → Option Page := fun s =>
  if s = "http://example.com/" then some ⟨"", ["Info@Example.com"], []⟩ else none

/-- A resolver that fails on every href. -/
def resolveNone : GoURL → String → Option GoURL := fun _ _ => none

/-- Slashless and slashed spelling of the same page. -/
def uC2a : GoURL := ⟨"http", "", "example.com", "/a", "", ""⟩

/-- Slashed spelling: same normalized URL as `uC2a`, different URL string. -/
def uC2b : GoURL := ⟨"http", "", "example.com", "/a/", "", ""⟩

/-- A web where `/a` links to its slashed twin `/a/`. -/
def webC2 : String → Option Page := fun s =>
  if s = "http://example.com/a" then some ⟨"", [], ["/a/"]⟩
  else if s = "http://example.com/a/" then some ⟨"", [], []⟩
  else none

/-- Resolver for `webC2`. -/
def resolveC2 : GoURL → String → Option GoURL := fun _ href =>
  if href = "/a/" then some uC2b else none

/-- Redirect-chain fixture: start URL. -/
def uC7a : GoURL := ⟨"http", "", "site.test", "/start", "", ""⟩

/-- Redirect-chain fixture: middle hop. -/
def uC7b : GoURL := ⟨"http", "", "site.test", "/mid", "", ""⟩

/-- Redirect-chain fixture: final page. -/
def uC7c : GoURL := ⟨"http", "", "site.test", "/end", "", ""⟩

/-- Two pure meta-refresh hops leading to a final page with content. -/
def webC7 : String → Option Page := fun s =>
  if s = "http://site.test/start" then some ⟨"0; url=/mid", [], ["/ignored-link"]⟩
  else if s = "http://site.test/mid" then some ⟨"0; url=/end", [], []⟩
  else if s = "http://site.test/end" then some ⟨"", ["a@b.co"], []⟩
  else none

/-- Resolver for `webC7`. -/
def resolveC7 : GoURL → String → Option GoURL := fun _ href =>
  if href = "/mid" then some uC7b
  else if href = "/end" then some uC7c
  else none

/-- Link-dispatch fixture: front page. -/
def uC8 : GoURL := ⟨"http", "", "shop.test", "/", "", ""⟩

/-- Link-dispatch fixture: a keyword (contact) link. -/
def uC8contact : GoURL := ⟨"http", "", "shop.test", "/contact", "", ""⟩

/-- Link-dispatch fixture: a non-keyword link. -/
def uC8other : GoURL := ⟨"http", "", "shop.test", "/products", "", ""⟩

/-- Front page with one keyword link and one plain link. -/
def webC8 : String → Option Page := fun s =>
  if s = "http://shop.test/" then some ⟨"", [], ["/contact", "/products"]⟩
  else if s = "http://shop.test/contact" then some ⟨"", ["sales@shop.test"], []⟩
  else if s = "http://shop.test/products" then some ⟨"", [], []⟩
  else none

/-- Resolver for `webC8`. -/
def resolveC8 : GoURL → String → Option GoURL := fun _ href =>
  if href = "/contact" then some uC8contact
  else if href = "/products" then some uC8other
  else none

/-- Empty job store. -/
def jsS0 : StoreState := ⟨[], [], []⟩

/-- Store after enqueueing job `j1`. -/
def jsS1 : StoreState := (Enqueue jsS0 "j1" "http://example.com" "http://callback" "" 10).2

/-- Store after a worker dequeues `j1` (now `processing`). -/
def jsS2 : StoreState := (Dequeue jsS1 11).2

/-- The job value the worker holds after its dequeue of `j1`. -/
def jsJob2 : ScanJob :=
  ⟨"j1", "http://example.com", "http://callback", "", .processing, 10, some 11, none, "", "", [], 0⟩

/-- Store after the worker completes `j1` (now terminal `completed`). -/
def jsS3 : StoreState := CompleteJob jsS2 jsJob2 ["a@x.com"] 1 "1s" 12

/-- Store after a cancellation request against the completed job `j1`. -/
def jsS4 : StoreState := (CancelJob jsS3 "j1" 13).2

/-- Store holding one queued job `job-1`, for exercising `CancelJob`. -/
def c4S : StoreState := (Enqueue ⟨[], [], []⟩ "job-1" "http://x" "http://hook" "" 5).2

/-- The queued record of `job-1` in `c4S`. -/
def c4Job : ScanJob := ⟨"job-1", "http://x", "http://hook", "", .queued, 5, none, none, "", "", [], 0⟩

/-- An endpoint that answers 500 to every delivery attempt. -/
def respAll500 : Nat → WebhookResp := fun _ => .status 500

/-! ## Helper lemmas -/

theorem foldl_preserve {α σ : Type _} {P : σ → Prop} (f : σ → α → σ)
    (h : ∀ s a, P s → P (f s a)) : ∀ (l : List α) (s : σ), P s → P (l.foldl f s) := by
  intro l
  induction l with
  | nil => intro s hs; simpa using hs
  | cons a t ih => intro s hs; exact ih _ (h _ _ hs)

theorem crawlRecursive_host (web : String → Option Page)
    (resolve : GoURL → String → Option GoURL) (base : GoURL) (maxDepth : Nat) :
    ∀ (fuel : Nat) (st : CrawlState) (u : GoURL) (depth : Nat),
      (∀ p ∈ st.trace, (p : GoURL × Nat).1.Host = base.Host) →
      ∀ p ∈ (crawlRecursive web resolve base maxDepth fuel st u depth).trace,
        (p : GoURL × Nat).1.Host = base.Host := by
  intro fuel
  induction fuel with
  | zero => intro st u depth hst; simpa [crawlRecursive] using hst
  | succ n ih =>
    intro st u depth hst
    rw [crawlRecursive]
    split
    · exact hst
    next hguard =>
      push_neg at hguard
      have hst1 : ∀ p ∈ (st.trace ++ [(u, depth)]), (p : GoURL × Nat).1.Host = base.Host := by
        intro p hp
        rcases List.mem_append.1 hp with h | h
        · exact hst p h
        · rcases List.mem_singleton.1 h with rfl
          exact hguard.2.2
      cases hweb : web u.toString with
      | none => simpa using hst1
      | some page =>
        dsimp only
        cases hmr : (if page.MetaRefresh ≠ "" then parseMetaRefresh (resolve u) page.MetaRefresh else none) with
        | some redirectURL => exact ih _ _ _ hst1
        | none =>
          dsimp only
          refine foldl_preserve
            (P := fun s : CrawlState => ∀ p ∈ s.trace, (p : GoURL × Nat).1.Host = base.Host)
            _ ?_ page.Hrefs _ ?_
          · intro s a hs
            cases hres : resolve u a with
            | none => exact hs
            | some nextURL => exact ih _ _ _ hs
          · exact hst1

/-- Claim C1: for every crawl started at a URL S, every URL the traversal
fetches (a `crawlRecursive` call reaching the fetch step) has the same host
as S; a candidate whose host differs from the start host is rejected by the
guard before fetching. -/
theorem crawl_fetches_only_start_host (web : String → Option Page)
    (resolve : GoURL → String → Option GoURL) (maxDepth fuel : Nat) (startURL : GoURL) :
    ∀ p ∈ (Crawl web resolve maxDepth fuel startURL).trace,
      (p : GoURL × Nat).1.Host = startURL.Host :=
  crawlRecursive_host web resolve startURL maxDepth fuel ⟨[], [], []⟩ startURL 0
    (fun p hp => absurd hp (List.not_mem_nil p))

/-- Witness for C1 on a concrete one-page site. -/
theorem crawl_fetches_only_start_host_witness :
    (uC1, 0) ∈ (Crawl webC1 resolveNone 3 2 uC1).trace ∧ uC1.Host = uC1.Host :=
  ⟨by decide, crawl_fetches_only_start_host webC1 resolveNone 3 2 uC1 (uC1, 0) (by decide)⟩

theorem crawlRecursive_nodup (web : String → Option Page)
    (resolve : GoURL → String → Option GoURL) (base : GoURL) (maxDepth : Nat) :
    ∀ (fuel : Nat) (st : CrawlState) (u : GoURL) (depth : Nat),
      (traceStrings st).Nodup → (∀ x ∈ traceStrings st, x ∈ st.visited) →
      (traceStrings (crawlRecursive web resolve base maxDepth fuel st u depth)).Nodup ∧
      ∀ x ∈ traceStrings (crawlRecursive web resolve base maxDepth fuel st u depth),
        x ∈ (crawlRecursive web resolve base maxDepth fuel st u depth).visited := by
  intro fuel
  induction fuel with
  | zero => intro st u depth h1 h2; exact ⟨by simpa [crawlRecursive] using h1, by simpa [crawlRecursive] using h2⟩
  | succ n ih =>
    intro st u depth h1 h2
    rw [crawlRecursive]
    split
    · exact ⟨h1, h2⟩
    next hguard =>
      push_neg at hguard
      have hnotmem : u.toString ∉ traceStrings st := fun hx => hguard.2.1 (h2 _ hx)
      have h1' : (traceStrings st ++ [u.toString]).Nodup := by
        simp only [List.nodup_append, List.nodup_singleton, List.disjoint_singleton]
        exact ⟨h1, trivial, hnotmem⟩
      have h2' : ∀ x ∈ traceStrings st ++ [u.toString], x ∈ u.toString :: st.visited := by
        intro x hx
        rcases List.mem_append.1 hx with h | h
        · exact List.mem_cons_of_mem _ (h2 _ h)
        · rcases List.mem_singleton.1 h with rfl
          exact List.mem_cons_self _ _
      have hts : ∀ es, traceStrings ⟨u.toString :: st.visited, es, st.trace ++ [(u, depth)]⟩
          = traceStrings st ++ [u.toString] := fun es => by
        simp [traceStrings]
      cases hweb : web u.toString with
      | none =>
        refine ⟨by simpa [hts _] using h1', ?_⟩
        intro x hx
        exact h2' x (by simpa [hts _] using hx)
      | some page =>
        dsimp only
        cases hmr : (if page.MetaRefresh ≠ "" then parseMetaRefresh (resolve u) page.MetaRefresh else none) with
        | some redirectURL =>
          exact ih _ _ _ (by simpa [hts _] using h1') (fun x hx => h2' x (by simpa [hts _] using hx))
        | none =>
          dsimp only
          refine foldl_preserve
            (P := fun s : CrawlState =>
              (traceStrings s).Nodup ∧ ∀ x ∈ traceStrings s, x ∈ s.visited)
            _ ?_ page.Hrefs _ ?_
          · rintro s a ⟨hs1, hs2⟩
            cases hres : resolve u a with
            | none => exact ⟨hs1, hs2⟩
            | some nextURL => exact ih _ _ _ hs1 hs2
          · exact ⟨by simpa [hts _] using h1', fun x hx => h2' x (by simpa [hts _] using hx)⟩

/-- Claim C2 (amended): within one crawl the traversal never fetches the
same URL string (`u.String()`, the visited-set identity) twice; the visited
check happens before fetching. -/
theorem crawl_trace_urlstrings_nodup (web : String → Option Page)
    (resolve : GoURL → String → Option GoURL) (maxDepth fuel : Nat) (startURL : GoURL) :
    (traceStrings (Crawl web resolve maxDepth fuel startURL)).Nodup :=
  (crawlRecursive_nodup web resolve startURL maxDepth fuel ⟨[], [], []⟩ startURL 0
    (by simp [traceStrings]) (by simp [traceStrings])).1

/-- Claim C2 (counterexample): the visited set is keyed by the exact URL
string, not by the normalized URL, so `/a` and `/a/` — whose normalized
URLs coincide — are both fetched within one crawl. -/
theorem crawl_can_refetch_same_normalized_url :
    ((Crawl webC2 resolveC2 1 3 uC2a).trace.map fun p => normalizedURL p.1)
        = ["example.com/a", "example.com/a"] ∧
    ¬ ((Crawl webC2 resolveC2 1 3 uC2a).trace.map fun p => normalizedURL p.1).Nodup := by
  constructor
  · decide
  · decide

/-- Claim C7: a page declaring a parseable meta-refresh redirect makes the
crawler recurse into the resolved target at the *same* depth, skipping the
page's own hyperlinks; a chain of redirects through `us` reaches its end
URL `v` with no depth consumed per hop — the crawl from the head of the
chain equals the crawl of `v` at the unchanged depth, the state having only
recorded the redirect hops themselves (all at depth `depth`), with no
contribution from any hyperlink of the redirecting pages. -/
theorem crawl_follows_redirect_chain_at_same_depth
    (web : String → Option Page) (resolve : GoURL → String → Option GoURL)
    (base : GoURL) (maxDepth : Nat) :
    ∀ (us : List GoURL) (v : GoURL) (fuel : Nat) (st : CrawlState) (depth : Nat),
      depth ≤ maxDepth →
      chainSteps web resolve us v →
      (∀ w ∈ us, w.Host = base.Host) →
      (us.map GoURL.toString).Nodup →
      (∀ w ∈ us, w.toString ∉ st.visited) →
      crawlRecursive web resolve base maxDepth (fuel + us.length) st (us.headD v) depth
        = crawlRecursive web resolve base maxDepth fuel (pushVisits st us depth) v depth := by
  intro us
  induction us with
  | nil =>
    intro v fuel st depth _ _ _ _ _
    simp [pushVisits]
  | cons w rest ih =>
    intro v fuel st depth hdep hchain hhost hnodup hvis
    obtain ⟨⟨p, hweb, hmrne, hparse⟩, hchain'⟩ := hchain
    have hguard : ¬(depth > maxDepth ∨ w.toString ∈ st.visited ∨ w.Host ≠ base.Host) := by
      push_neg
      exact ⟨hdep, hvis w (List.mem_cons_self _ _), hhost w (List.mem_cons_self _ _)⟩
    have hnodup' : GoURL.toString w ∉ rest.map GoURL.toString ∧
        (rest.map GoURL.toString).Nodup := by
      rw [List.map_cons, List.nodup_cons] at hnodup
      exact hnodup
    have hstep : crawlRecursive web resolve base maxDepth (fuel + (w :: rest).length) st
          ((w :: rest).headD v) depth
        = crawlRecursive web resolve base maxDepth (fuel + rest.length)
            ⟨w.toString :: st.visited, st.emails, st.trace ++ [(w, depth)]⟩
            (rest.headD v) depth := by
      have hlen : fuel + (w :: rest).length = (fuel + rest.length) + 1 := by
        rw [List.length_cons, Nat.add_assoc]
      rw [List.headD_cons, hlen, crawlRecursive, if_neg hguard]
      dsimp only
      rw [hweb]
      dsimp only
      rw [if_pos hmrne, hparse]
    have hvis1 : ∀ w' ∈ rest,
        w'.toString ∉ (w.toString :: st.visited : List String) := by
      intro w' hw'
      simp only [List.mem_cons, not_or]
      refine ⟨?_, hvis w' (List.mem_cons_of_mem _ hw')⟩
      intro heq
      exact hnodup'.1 (heq ▸ List.mem_map_of_mem GoURL.toString hw')
    rw [hstep, ih v fuel _ depth hdep hchain'
      (fun w' hw' => hhost w' (List.mem_cons_of_mem _ hw')) hnodup'.2 hvis1]
    have hpush : pushVisits ⟨w.toString :: st.visited, st.emails, st.trace ++ [(w, depth)]⟩
        rest depth = pushVisits st (w :: rest) depth := by
      simp [pushVisits, List.reverse_cons, List.append_assoc]
    rw [hpush]

/-- Witness for C7: two meta-refresh hops at depth = maxDepth = 2 still
reach the final page without consuming depth. -/
theorem crawl_follows_redirect_chain_at_same_depth_witness :
    chainSteps webC7 resolveC7 [uC7a, uC7b] uC7c ∧
    (∀ w ∈ [uC7a, uC7b], w.Host = uC7a.Host) ∧
    ([uC7a, uC7b].map GoURL.toString).Nodup ∧
    (∀ w ∈ [uC7a, uC7b], w.toString ∉ (⟨[], [], []⟩ : CrawlState).visited) ∧
    crawlRecursive webC7 resolveC7 uC7a 2 (1 + [uC7a, uC7b].length) ⟨[], [], []⟩
        ([uC7a, uC7b].headD uC7c) 2
      = crawlRecursive webC7 resolveC7 uC7a 2 1 (pushVisits ⟨[], [], []⟩ [uC7a, uC7b] 2) uC7c 2 := by
  have hchain : chainSteps webC7 resolveC7 [uC7a, uC7b] uC7c :=
    ⟨⟨⟨"0; url=/mid", [], ["/ignored-link"]⟩, by decide, by decide, by decide⟩,
     ⟨⟨"0; url=/end", [], []⟩, by decide, by decide, by decide⟩, trivial⟩
  exact ⟨hchain, by decide, by decide, by decide,
    crawl_follows_redirect_chain_at_same_depth webC7 resolveC7 uC7a 2 [uC7a, uC7b] uC7c 1
      ⟨[], [], []⟩ 2 (by decide) hchain (by decide) (by decide) (by decide)⟩

/-- Claim C8: a candidate whose depth exceeds `maxDepth` is rejected, and on
a fetched page without a meta-redirect every hyperlink that resolves is
recursed into at the same depth when the keyword classifier matches the
resolved path (case-insensitive substring match against the fixed keyword
table) and at depth + 1 otherwise, in page order. -/
theorem crawl_link_keyword_dispatch (web : String → Option Page)
    (resolve : GoURL → String → Option GoURL) (base : GoURL) (maxDepth : Nat)
    (st : CrawlState) (u : GoURL) (depth : Nat) :
    (∀ fuel, depth > maxDepth → crawlRecursive web resolve base maxDepth fuel st u depth = st)
    ∧ ∀ (fuel : Nat) (page : Page), depth ≤ maxDepth → u.toString ∉ st.visited →
        u.Host = base.Host → web u.toString = some page → page.MetaRefresh = "" →
        crawlRecursive web resolve base maxDepth (fuel + 1) st u depth =
          page.Hrefs.foldl (fun s href =>
            match resolve u href with
            | none => s
            | some nextURL =>
              crawlRecursive web resolve base maxDepth fuel s nextURL
                (if isContactLink nextURL.Path then depth else depth + 1))
            ⟨u.toString :: st.visited, addEmails st.emails page.Emails,
              st.trace ++ [(u, depth)]⟩ := by
  constructor
  · intro fuel hgt
    cases fuel with
    | zero => rfl
    | succ n => rw [crawlRecursive, if_pos (Or.inl hgt)]
  · intro fuel page hdep hvis hhost hweb hmr
    have hguard : ¬(depth > maxDepth ∨ u.toString ∈ st.visited ∨ u.Host ≠ base.Host) := by
      push_neg
      exact ⟨hdep, hvis, hhost⟩
    rw [crawlRecursive, if_neg hguard]
    dsimp only
    rw [hweb]
    dsimp only
    rw [hmr, if_neg (by simp : ¬("" : String) ≠ "")]

/-- Witness for C8 on a two-link front page: the contact-keyword link is
crawled at the same depth 0, the plain link at depth 1. -/
theorem crawl_link_keyword_dispatch_witness :
    (0 : Nat) ≤ 1 ∧ uC8.toString ∉ (⟨[], [], []⟩ : CrawlState).visited ∧
    uC8.Host = uC8.Host ∧ webC8 uC8.toString = some ⟨"", [], ["/contact", "/products"]⟩ ∧
    (crawlRecursive webC8 resolveC8 uC8 1 (1 + 1) ⟨[], [], []⟩ uC8 0 =
      (Page.Hrefs ⟨"", [], ["/contact", "/products"]⟩).foldl (fun s href =>
        match resolveC8 uC8 href with
        | none => s
        | some nextURL =>
          crawlRecursive webC8 resolveC8 uC8 1 1 s nextURL
            (if isContactLink nextURL.Path then 0 else 0 + 1))
        ⟨uC8.toString :: (⟨[], [], []⟩ : CrawlState).visited,
          addEmails (⟨[], [], []⟩ : CrawlState).emails (Page.Emails ⟨"", [], ["/contact", "/products"]⟩),
          (⟨[], [], []⟩ : CrawlState).trace ++ [(uC8, 0)]⟩) ∧
    isContactLink uC8contact.Path = true ∧ isContactLink uC8other.Path = false ∧
    (Crawl webC8 resolveC8 1 3 uC8).trace = [(uC8, 0), (uC8contact, 0), (uC8other, 1)] :=
  ⟨by decide, by decide, rfl, by decide,
    (crawl_link_keyword_dispatch webC8 resolveC8 uC8 1 ⟨[], [], []⟩ uC8 0).2 1
      ⟨"", [], ["/contact", "/products"]⟩ (by decide) (by decide) rfl (by decide) rfl,
    by decide, by decide, by decide⟩

theorem sendWebhookLoop_length (resp : Nat → WebhookResp) (retries : Nat) :
    ∀ (fuel attempt : Nat), (sendWebhookLoop resp retries fuel attempt).attempts.length ≤ fuel := by
  intro fuel
  induction fuel with
  | zero => intro attempt; simp [sendWebhookLoop]
  | succ n ih =>
    intro attempt
    rw [sendWebhookLoop]
    split
    · simp
    · split
      · split
        · simp
        · simpa using Nat.succ_le_succ (ih (attempt + 1))
      · split
        · simp
        · split
          · simp
          · simpa using Nat.succ_le_succ (ih (attempt + 1))

theorem sendWebhookLoop_fail_step (resp : Nat → WebhookResp) (retries : Nat)
    (hfail : ∀ n, failedAttempt (resp n)) (fuel attempt : Nat) (hle : attempt ≤ retries) :
    sendWebhookLoop resp retries (fuel + 1) attempt =
      if attempt = retries then ⟨[attempt], [], false⟩
      else
        let rest := sendWebhookLoop resp retries fuel (attempt + 1)
        ⟨attempt :: rest.attempts, attempt * 2 :: rest.sleeps, rest.delivered⟩ := by
  rw [sendWebhookLoop, if_neg (by omega : ¬ attempt > retries)]
  cases hr : resp attempt with
  | transportErr => rfl
  | status code =>
    have hf := hfail attempt
    rw [hr] at hf
    simp only [failedAttempt] at hf
    dsimp only
    rw [if_neg (by omega : ¬(200 ≤ code ∧ code < 300))]

/-- Claim C9: with retry budget 3 and an endpoint failing every attempt
(non-2xx or transport error), a job with a non-empty webhook URL gets
exactly 3 delivery attempts, the inter-attempt waits are
`attempt_number * 2s` and strictly increasing, nothing is delivered, and in
general at most `retry_count + 1` sends happen per job.  `sendWebhook`
receives no job store and returns only the delivery log, so the job record,
its status and the queue are untouched by construction. -/
theorem webhook_three_failures (resp : Nat → WebhookResp) (webhookURL : String)
    (hurl : webhookURL ≠ "") (hfail : ∀ n, failedAttempt (resp n)) :
    (sendWebhook resp 3 webhookURL).attempts = [1, 2, 3] ∧
    (sendWebhook resp 3 webhookURL).sleeps = [1 * 2, 2 * 2] ∧
    List.Chain' (· < ·) (sendWebhook resp 3 webhookURL).sleeps ∧
    (sendWebhook resp 3 webhookURL).delivered = false ∧
    ∀ (resp2 : Nat → WebhookResp) (retries : Nat) (url : String),
      (sendWebhook resp2 retries url).attempts.length ≤ retries + 1 := by
  have l3 : sendWebhookLoop resp 3 1 3 = ⟨[3], [], false⟩ := by
    simpa using sendWebhookLoop_fail_step resp 3 hfail 0 3 (by omega)
  have l2 : sendWebhookLoop resp 3 2 2 = ⟨[2, 3], [4], false⟩ := by
    have h := sendWebhookLoop_fail_step resp 3 hfail 1 2 (by omega)
    rw [if_neg (by omega)] at h
    simpa [l3] using h
  have l1 : sendWebhookLoop resp 3 3 1 = ⟨[1, 2, 3], [2, 4], false⟩ := by
    have h := sendWebhookLoop_fail_step resp 3 hfail 2 1 (by omega)
    rw [if_neg (by omega)] at h
    simpa [l2] using h
  have key : sendWebhook resp 3 webhookURL = ⟨[1, 2, 3], [2, 4], false⟩ := by
    rw [sendWebhook, if_neg hurl]
    exact l1
  refine ⟨by rw [key], by rw [key], by rw [key]; simp, by rw [key], ?_⟩
  intro resp2 retries url
  rw [sendWebhook]
  split
  · simp
  · exact le_trans (sendWebhookLoop_length resp2 retries retries 1) (Nat.le_succ retries)

/-- Witness for C9 at an endpoint answering 500 to every attempt. -/
theorem webhook_three_failures_witness :
    ("http://cb.example/hook" : String) ≠ "" ∧
    (∀ n, failedAttempt (respAll500 n)) ∧
    (sendWebhook respAll500 3 "http://cb.example/hook").attempts = [1, 2, 3] ∧
    (sendWebhook respAll500 3 "http://cb.example/hook").sleeps = [1 * 2, 2 * 2] :=
  have hf : ∀ n, failedAttempt (respAll500 n) := fun _ => Or.inr (by omega)
  have h := webhook_three_failures respAll500 "http://cb.example/hook" (by decide) hf
  ⟨by decide, hf, h.1, h.2.1⟩

theorem lookupJob_putJob (jobs : List (String × ScanJob)) (job : ScanJob) (id : String) :
    lookupJob (putJob jobs job) id = if job.ID = id then some job else lookupJob jobs id :=
  rfl

theorem not_mem_removeAll (l : List String) (x : String) : x ∉ removeAll l x := by
  simp [removeAll]

theorem mem_removeAll {l : List String} {x y : String} :
    y ∈ removeAll l x ↔ y ∈ l ∧ y ≠ x := by
  simp [removeAll]

/-- Claim C4: `CancelJob` on a `processing` job returns the explanatory
error and leaves the whole store unchanged; on a `queued` job it succeeds,
stamps `cancelled` and the completion time, and removes the id from both
the work queue and the active-job set. -/
theorem cancelJob_processing_vs_queued (s : StoreState) (jobID : String) (t : Nat)
    (job : ScanJob) (hstored : lookupJob s.jobs jobID = some job) (hid : job.ID = jobID) :
    (job.Status = .processing →
      (CancelJob s jobID t).1 = some "cannot cancel job that is currently processing" ∧
      (CancelJob s jobID t).2 = s)
    ∧ (job.Status = .queued →
      (CancelJob s jobID t).1 = none ∧
      lookupJob (CancelJob s jobID t).2.jobs jobID =
        some { job with Status := .cancelled, CompletedAt := some t } ∧
      jobID ∉ (CancelJob s jobID t).2.queue ∧
      jobID ∉ (CancelJob s jobID t).2.active) := by
  constructor
  · intro hp
    simp only [CancelJob, hstored, if_pos hp]
    exact ⟨trivial, trivial⟩
  · intro hq
    have hnp : ¬ job.Status = .processing := by rw [hq]; intro h; cases h
    simp only [CancelJob, hstored, if_neg hnp]
    refine ⟨trivial, ?_, ?_, ?_⟩
    · rw [lookupJob_putJob]
      simp [hid]
    · exact not_mem_removeAll _ _
    · exact not_mem_removeAll _ _

/-- Witness for C4: cancelling the queued job `job-1`. -/
theorem cancelJob_processing_vs_queued_witness :
    lookupJob c4S.jobs "job-1" = some c4Job ∧ c4Job.ID = "job-1" ∧ c4Job.Status = .queued ∧
    ((CancelJob c4S "job-1" 6).1 = none ∧
      lookupJob (CancelJob c4S "job-1" 6).2.jobs "job-1" =
        some { c4Job with Status := .cancelled, CompletedAt := some 6 } ∧
      "job-1" ∉ (CancelJob c4S "job-1" 6).2.queue ∧
      "job-1" ∉ (CancelJob c4S "job-1" 6).2.active) :=
  ⟨by decide, rfl, rfl,
    (cancelJob_processing_vs_queued c4S "job-1" 6 c4Job (by decide) rfl).2 rfl⟩

theorem lookupJob_putJob_ne (jobs : List (String × ScanJob)) (job : ScanJob) (id : String)
    (h : job.ID ≠ id) : lookupJob (putJob jobs job) id = lookupJob jobs id := by
  rw [lookupJob_putJob, if_neg h]

theorem lookupJob_putJob_self (jobs : List (String × ScanJob)) (job : ScanJob) :
    lookupJob (putJob jobs job) job.ID = some job := by
  rw [lookupJob_putJob, if_pos rfl]

theorem allowed_of_same {j j' : ScanJob} (h : j = j') :
    allowedTransition j.Status j'.Status := Or.inl (by rw [h])

/-- Claim C3 (counterexample): the operation sequence enqueue `j1`, dequeue,
complete, cancel moves the job from the terminal status `completed` to
`cancelled`: `CancelJob` rejects only `processing` jobs, so a terminal job
is not immutable. -/
theorem terminal_job_mutated_by_cancel :
    (Dequeue jsS1 11).1 = some jsJob2 ∧
    (lookupJob jsS3.jobs "j1").map ScanJob.Status = some .completed ∧
    (CancelJob jsS3 "j1" 13).1 = none ∧
    (lookupJob jsS4.jobs "j1").map ScanJob.Status = some .cancelled :=
  ⟨by decide, by decide, by decide, by decide⟩

/-- Claim C3 (amended): under the store invariant, each job-store operation
(enqueue of a fresh id, dequeue, complete/fail of the record the worker
holds from its dequeue, cancel of any id) preserves the invariant and moves
every job status only along `queued → processing → {completed | failed}`,
`queued → cancelled`, or — the correction — from any non-`processing`
status (including the terminal ones) to `cancelled` via `CancelJob`. -/
theorem jobstore_status_fsm (s s' : StoreState) (hinv : StoreInv s) (hstep : Step s s') :
    StoreInv s' ∧
    ∀ id j j', lookupJob s.jobs id = some j → lookupJob s'.jobs id = some j' →
      allowedTransition j.Status j'.Status := by
  obtain ⟨hkeys, hnodup, hqueued⟩ := hinv
  cases hstep with
  | enqueue id url wh cb t hfresh =>
    simp only [Enqueue]
    have hqnotin : id ∉ s.queue := by
      intro hmem
      obtain ⟨j, hj, _⟩ := hqueued id hmem
      rw [hfresh] at hj
      exact Option.noConfusion hj
    refine ⟨⟨?_, ?_, ?_⟩, ?_⟩
    · intro id0 j0 h0
      rw [lookupJob_putJob] at h0
      split at h0
      · injection h0 with h
        subst h
        assumption
      · exact hkeys _ _ h0
    · exact List.nodup_cons.2 ⟨hqnotin, hnodup⟩
    · intro id0 hid0
      rcases List.mem_cons.1 hid0 with rfl | hid0'
      · exact ⟨_, lookupJob_putJob_self _ _, rfl⟩
      · obtain ⟨j, hj, hjq⟩ := hqueued id0 hid0'
        refine ⟨j, ?_, hjq⟩
        rw [lookupJob_putJob_ne]
        · exact hj
        · exact fun heq => hqnotin ((show id = id0 from heq) ▸ hid0')
    · intro id0 j j' hj hj'
      rw [lookupJob_putJob] at hj'
      split at hj'
      next heq =>
        exfalso
        rw [show id = id0 from heq] at hfresh
        rw [hfresh] at hj
        exact Option.noConfusion hj
      · rw [hj] at hj'
        injection hj' with h
        exact allowed_of_same h
  | dequeue t =>
    cases hql : s.queue.getLast? with
    | none =>
      simp only [Dequeue, hql]
      refine ⟨⟨hkeys, hnodup, hqueued⟩, ?_⟩
      intro id j j' hj hj'
      rw [hj] at hj'
      injection hj' with h
      exact allowed_of_same h
    | some jobID =>
      have hmem : jobID ∈ s.queue := List.mem_of_getLast?_eq_some hql
      obtain ⟨jq, hjq, hjqs⟩ := hqueued jobID hmem
      have hqid : jq.ID = jobID := hkeys _ _ hjq
      simp only [Dequeue, hql, hjq]
      have hnotdrop : jobID ∉ s.queue.dropLast := by
        have hmemo : jobID ∈ s.queue.getLast? := by rw [hql]; rfl
        have hconc := List.dropLast_append_getLast? jobID hmemo
        have hnd : (s.queue.dropLast ++ [jobID]).Nodup := by rw [hconc]; exact hnodup
        intro hmem'
        exact (List.nodup_append.1 hnd).2.2 hmem' (List.mem_singleton_self _)
      refine ⟨⟨?_, ?_, ?_⟩, ?_⟩
      · intro id0 j0 h0
        rw [lookupJob_putJob] at h0
        split at h0
        next heq =>
          injection h0 with h
          subst h
          exact heq
        · exact hkeys _ _ h0
      · exact List.Sublist.nodup (List.dropLast_sublist _) hnodup
      · intro id0 hid0
        have hid0' : id0 ∈ s.queue := List.dropLast_subset _ hid0
        obtain ⟨j0, hj0, hj0q⟩ := hqueued id0 hid0'
        refine ⟨j0, ?_, hj0q⟩
        rw [lookupJob_putJob_ne]
        · exact hj0
        · show jq.ID ≠ id0
          rw [hqid]
          exact fun heq => hnotdrop (heq ▸ hid0)
      · intro id0 j j' hj hj'
        rw [lookupJob_putJob] at hj'
        split at hj'
        next heq =>
          have hi : jq.ID = id0 := heq
          rw [hqid] at hi
          rw [← hi] at hj
          rw [hjq] at hj
          injection hj with h
          injection hj' with h'
          rw [← h, ← h']
          exact Or.inr (Or.inl ⟨hjqs, rfl⟩)
        · rw [hj] at hj'
          injection hj' with h
          exact allowed_of_same h
  | complete job emails pv ct t hstored hproc =>
    simp only [CompleteJob]
    have hnotq : job.ID ∉ s.queue := by
      intro hmem
      obtain ⟨j, hj, hjq⟩ := hqueued _ hmem
      rw [hstored] at hj
      injection hj with h
      rw [← h] at hjq
      exact JobStatus.noConfusion (hproc.symm.trans hjq)
    refine ⟨⟨?_, hnodup, ?_⟩, ?_⟩
    · intro id0 j0 h0
      rw [lookupJob_putJob] at h0
      split at h0
      next heq =>
        injection h0 with h
        subst h
        exact heq
      · exact hkeys _ _ h0
    · intro id0 hid0
      obtain ⟨j0, hj0, hj0q⟩ := hqueued id0 hid0
      refine ⟨j0, ?_, hj0q⟩
      rw [lookupJob_putJob_ne]
      · exact hj0
      · show job.ID ≠ id0
        exact fun heq => hnotq (heq ▸ hid0)
    · intro id0 j j' hj hj'
      rw [lookupJob_putJob] at hj'
      split at hj'
      next heq =>
        have hi : job.ID = id0 := heq
        rw [← hi] at hj
        rw [hstored] at hj
        injection hj with h
        injection hj' with h'
        rw [← h, ← h']
        exact Or.inr (Or.inr (Or.inl ⟨hproc, rfl⟩))
      · rw [hj] at hj'
        injection hj' with h
        exact allowed_of_same h
  | fail job errorMsg t hstored hproc =>
    simp only [FailJob]
    have hnotq : job.ID ∉ s.queue := by
      intro hmem
      obtain ⟨j, hj, hjq⟩ := hqueued _ hmem
      rw [hstored] at hj
      injection hj with h
      rw [← h] at hjq
      exact JobStatus.noConfusion (hproc.symm.trans hjq)
    refine ⟨⟨?_, hnodup, ?_⟩, ?_⟩
    · intro id0 j0 h0
      rw [lookupJob_putJob] at h0
      split at h0
      next heq =>
        injection h0 with h
        subst h
        exact heq
      · exact hkeys _ _ h0
    · intro id0 hid0
      obtain ⟨j0, hj0, hj0q⟩ := hqueued id0 hid0
      refine ⟨j0, ?_, hj0q⟩
      rw [lookupJob_putJob_ne]
      · exact hj0
      · show job.ID ≠ id0
        exact fun heq => hnotq (heq ▸ hid0)
    · intro id0 j j' hj hj'
      rw [lookupJob_putJob] at hj'
      split at hj'
      next heq =>
        have hi : job.ID = id0 := heq
        rw [← hi] at hj
        rw [hstored] at hj
        injection hj with h
        injection hj' with h'
        rw [← h, ← h']
        exact Or.inr (Or.inr (Or.inr (Or.inl ⟨hproc, rfl⟩)))
      · rw [hj] at hj'
        injection hj' with h
        exact allowed_of_same h
  | cancel jobID t =>
    cases hlj : lookupJob s.jobs jobID with
    | none =>
      simp only [CancelJob, hlj]
      refine ⟨⟨hkeys, hnodup, hqueued⟩, ?_⟩
      intro id j j' hj hj'
      rw [hj] at hj'
      injection hj' with h
      exact allowed_of_same h
    | some job =>
      have hjid : job.ID = jobID := hkeys _ _ hlj
      by_cases hproc : job.Status = .processing
      · simp only [CancelJob, hlj, if_pos hproc]
        refine ⟨⟨hkeys, hnodup, hqueued⟩, ?_⟩
        intro id j j' hj hj'
        rw [hj] at hj'
        injection hj' with h
        exact allowed_of_same h
      · simp only [CancelJob, hlj, if_neg hproc]
        refine ⟨⟨?_, hnodup.filter _, ?_⟩, ?_⟩
        · intro id0 j0 h0
          rw [lookupJob_putJob] at h0
          split at h0
          next heq =>
            injection h0 with h
            subst h
            exact heq
          · exact hkeys _ _ h0
        · intro id0 hid0
          obtain ⟨hid0', hne⟩ := mem_removeAll.1 hid0
          obtain ⟨j0, hj0, hj0q⟩ := hqueued id0 hid0'
          refine ⟨j0, ?_, hj0q⟩
          rw [lookupJob_putJob_ne]
          · exact hj0
          · show job.ID ≠ id0
            rw [hjid]
            exact fun heq => hne heq.symm
        · intro id0 j j' hj hj'
          rw [lookupJob_putJob] at hj'
          split at hj'
          next heq =>
            have hi : job.ID = id0 := heq
            rw [← hi] at hj
            rw [hjid] at hj
            rw [hlj] at hj
            injection hj with h
            injection hj' with h'
            rw [← h, ← h']
            exact Or.inr (Or.inr (Or.inr (Or.inr ⟨hproc, rfl⟩)))
          · rw [hj] at hj'
            injection hj' with h
            exact allowed_of_same h

/-- Witness for C3 on the empty store and a fresh enqueue. -/
theorem jobstore_status_fsm_witness :
    StoreInv jsS0 ∧ Step jsS0 jsS1 ∧ StoreInv jsS1 :=
  have h0 : StoreInv jsS0 := ⟨fun _ _ h => Option.noConfusion h, List.nodup_nil,
    fun _ h => absurd h (List.not_mem_nil _)⟩
  have hstep : Step jsS0 jsS1 :=
    Step.enqueue jsS0 "j1" "http://example.com" "http://callback" "" 10 rfl
  ⟨h0, hstep, (jobstore_status_fsm jsS0 jsS1 h0 hstep).1⟩

theorem mem_foldl_dedupInsert :
    ∀ (emails acc : List String) (x : String),
      x ∈ emails.foldl dedupInsert acc ↔
        x ∈ acc ∨ (x ≠ "" ∧ ∃ e ∈ emails, goTrim (goToLower e) = x) := by
  intro emails
  induction emails with
  | nil => intro acc x; simp
  | cons e rest ih =>
    intro acc x
    rw [List.foldl_cons, ih]
    rw [dedupInsert]
    by_cases hcond : goTrim (goToLower e) ≠ "" ∧ goTrim (goToLower e) ∉ acc
    · rw [if_pos hcond]
      constructor
      · rintro (hx | ⟨hne, e', he', hee⟩)
        · rcases List.mem_append.1 hx with h | h
          · exact Or.inl h
          · rcases List.mem_singleton.1 h with rfl
            exact Or.inr ⟨hcond.1, e, List.mem_cons_self _ _, rfl⟩
        · exact Or.inr ⟨hne, e', List.mem_cons_of_mem _ he', hee⟩
      · rintro (hx | ⟨hne, e', he', hee⟩)
        · exact Or.inl (List.mem_append.2 (Or.inl hx))
        · rcases List.mem_cons.1 he' with rfl | h
          · exact Or.inl (List.mem_append.2 (Or.inr (hee ▸ List.mem_singleton_self _)))
          · exact Or.inr ⟨hne, e', h, hee⟩
    · rw [if_neg hcond]
      push_neg at hcond
      constructor
      · rintro (hx | ⟨hne, e', he', hee⟩)
        · exact Or.inl hx
        · exact Or.inr ⟨hne, e', List.mem_cons_of_mem _ he', hee⟩
      · rintro (hx | ⟨hne, e', he', hee⟩)
        · exact Or.inl hx
        · rcases List.mem_cons.1 he' with rfl | h
          · subst hee
            exact Or.inl (hcond hne)
          · exact Or.inr ⟨hne, e', h, hee⟩

theorem nodup_foldl_dedupInsert :
    ∀ (emails acc : List String), acc.Nodup → (emails.foldl dedupInsert acc).Nodup := by
  intro emails
  induction emails with
  | nil => intro acc h; simpa using h
  | cons e rest ih =>
    intro acc h
    rw [List.foldl_cons]
    refine ih _ ?_
    rw [dedupInsert]
    by_cases hcond : goTrim (goToLower e) ≠ "" ∧ goTrim (goToLower e) ∉ acc
    · rw [if_pos hcond]
      simp only [List.nodup_append, List.nodup_singleton, List.disjoint_singleton]
      exact ⟨h, trivial, hcond.2⟩
    · rw [if_neg hcond]
      exact h

/-- Claim C5 (amended): with deduplication enabled, the email list stored by
`Set` — and returned by a subsequent `Get` of the same URL — is exactly the
set of distinct *non-empty* trimmed, lower-cased versions of the inputs, in
sorted order without duplicates, for any insertion order and any mix of
case and surrounding whitespace; an input that trims to the empty string is
dropped rather than stored. -/
theorem cache_set_stores_normalized_emails (hash : String → String)
    (store : List (String × CachedResult)) (u : GoURL) (emails : List String)
    (depth pagesVisited t : Nat) :
    cacheGet hash true (cacheSet hash true true store u emails depth pagesVisited t) u
      = some ⟨DeduplicateEmails true emails, t, ⟨depth, pagesVisited⟩⟩ ∧
    List.Sorted (· ≤ ·) (DeduplicateEmails true emails) ∧
    (DeduplicateEmails true emails).Nodup ∧
    ∀ x, x ∈ DeduplicateEmails true emails ↔
      x ≠ "" ∧ ∃ e ∈ emails, goTrim (goToLower e) = x := by
  have hd : DeduplicateEmails true emails
      = (emails.foldl dedupInsert []).insertionSort (· ≤ ·) := by
    rw [DeduplicateEmails]
    simp
  refine ⟨?_, ?_, ?_, ?_⟩
  · simp [cacheGet, cacheSet, storeLookup]
  · rw [hd]
    exact List.sorted_insertionSort _ _
  · rw [hd]
    exact (List.perm_insertionSort _ _).symm.nodup (nodup_foldl_dedupInsert emails [] List.nodup_nil)
  · intro x
    rw [hd, List.mem_insertionSort, mem_foldl_dedupInsert]
    simp

/-- Claim C5 (counterexample): the whitespace-only input `"  "` trims to
the empty string and is dropped by `DeduplicateEmails`, so the stored list
does not contain the trimmed lower-cased version of every input. -/
theorem whitespace_email_dropped_not_stored :
    DeduplicateEmails true ["  "] = [] ∧ goTrim (goToLower "  ") = "" :=
  ⟨by decide, by decide⟩

/-- Claim C10: `generateKey` uses only the lowercased host and the
trailing-slash-trimmed path, so two parseable URLs agreeing on host and
path — in particular two URLs differing only in scheme, userinfo, query
string or fragment — produce the same key, and a `Set` under one is served
by a `Get` under the other. -/
theorem cache_key_ignores_scheme_user_query_fragment (hash : String → String)
    (dedupFlag : Bool) (store : List (String × CachedResult)) (u1 u2 : GoURL)
    (emails : List String) (depth pagesVisited t : Nat)
    (hhost : u1.Host = u2.Host) (hpath : u1.Path = u2.Path) :
    generateKey hash u1 = generateKey hash u2 ∧
    cacheGet hash true (cacheSet hash true dedupFlag store u1 emails depth pagesVisited t) u2
      = some ⟨DeduplicateEmails dedupFlag emails, t, ⟨depth, pagesVisited⟩⟩ := by
  have hkey : generateKey hash u1 = generateKey hash u2 := by
    unfold generateKey normalizedURL
    rw [hhost, hpath]
  refine ⟨hkey, ?_⟩
  simp only [cacheGet, cacheSet, Bool.not_true, Bool.false_eq_true, if_false, storeLookup]
  rw [if_pos hkey]

/-- Witness for C10: a `Set` under an http URL with userinfo, query and
fragment is served by a `Get` under the bare https spelling. -/
theorem cache_key_ignores_scheme_user_query_fragment_witness :
    (⟨"http", "bob", "Example.com", "/a", "q=1", "top"⟩ : GoURL).Host
        = (⟨"https", "", "Example.com", "/a", "", ""⟩ : GoURL).Host ∧
    (⟨"http", "bob", "Example.com", "/a", "q=1", "top"⟩ : GoURL).Path
        = (⟨"https", "", "Example.com", "/a", "", ""⟩ : GoURL).Path ∧
    (generateKey (fun s => s) ⟨"http", "bob", "Example.com", "/a", "q=1", "top"⟩
        = generateKey (fun s => s) ⟨"https", "", "Example.com", "/a", "", ""⟩ ∧
      cacheGet (fun s => s) true
          (cacheSet (fun s => s) true true [] ⟨"http", "bob", "Example.com", "/a", "q=1", "top"⟩
            ["X@a.co"] 3 7 99)
          ⟨"https", "", "Example.com", "/a", "", ""⟩
        = some ⟨DeduplicateEmails true ["X@a.co"], 99, ⟨3, 7⟩⟩) :=
  ⟨rfl, rfl,
    cache_key_ignores_scheme_user_query_fragment (fun s => s) true [] _ _ ["X@a.co"] 3 7 99 rfl rfl⟩

theorem toNat_charOfNat_of_valid {n : Nat} (h : n.isValidChar) : (Char.ofNat n).toNat = n := by
  rw [Char.ofNat, dif_pos h]
  simp [Char.ofNatAux, Char.toNat, UInt32.toNat, BitVec.toNat_ofNatLt]

theorem toLower_eq_slash_iff (c : Char) : c.toLower = '/' ↔ c = '/' := by
  constructor
  · intro h
    simp only [Char.toLower] at h
    split at h
    next hc =>
      exfalso
      have hv : (c.toNat + 32).isValidChar := Or.inl (by omega)
      have h2 := congrArg Char.toNat h
      rw [toNat_charOfNat_of_valid hv] at h2
      have h47 : ('/').toNat = 47 := rfl
      omega
    next hc => exact h
  · intro h
    subst h
    rfl

theorem map_toLower_getLast_slash {l : List Char} :
    (l.map Char.toLower).getLast? = some '/' ↔ l.getLast? = some '/' := by
  rw [List.getLast?_map]
  cases hl : l.getLast? with
  | none => simp
  | some c => simp [toLower_eq_slash_iff]

/-- Claim C6 (amended): the cache key is invariant under changing the case
of the host and under adding one trailing slash to a path whose
host-plus-path does not already end in a slash (equivalently, removing the
only trailing slash), so `HTTP://Example.com/a/` and `http://example.com/a`
produce the same key; for a collision-resistant (injective) digest it is
NOT invariant under changing the case of the path — two URLs with the same
host whose paths differ only in case produce different keys. -/
theorem cache_key_normalization (hash : String → String)
    (hinj : Function.Injective hash) :
    (∀ u1 u2 : GoURL, goToLower u1.Host = goToLower u2.Host → u1.Path = u2.Path →
        generateKey hash u1 = generateKey hash u2) ∧
    (∀ u : GoURL, ((goToLower u.Host).data ++ u.Path.data).getLast? ≠ some '/' →
        generateKey hash { u with Path := u.Path ++ "/" } = generateKey hash u) ∧
    (∀ u1 u2 : GoURL, u1.Host = u2.Host → u1.Path ≠ u2.Path →
        goToLower u1.Path = goToLower u2.Path →
        generateKey hash u1 ≠ generateKey hash u2) := by
  have hcancel : ∀ a b c : String, a ++ b = a ++ c → b = c := by
    intro a b c h
    have hd := congrArg String.data h
    rw [String.data_append, String.data_append] at hd
    exact String.ext (List.append_cancel_left hd)
  refine ⟨?_, ?_, ?_⟩
  · intro u1 u2 hhost hpath
    unfold generateKey normalizedURL
    rw [hhost, hpath]
  · intro u hnosl
    unfold generateKey normalizedURL
    congr 1
    apply congrArg hash
    apply congrArg String.mk
    show trimSuffixSlashChars ((goToLower u.Host).data ++ (u.Path ++ "/").data)
        = trimSuffixSlashChars ((goToLower u.Host).data ++ u.Path.data)
    rw [String.data_append]
    rw [show ("/" : String).data = ['/'] from rfl, ← List.append_assoc]
    rw [trimSuffixSlashChars, trimSuffixSlashChars]
    rw [if_pos (List.getLast?_concat _), if_neg hnosl]
    exact List.dropLast_concat
  · intro u1 u2 hhost hpne hlow hkey
    have hn : normalizedURL u1 = normalizedURL u2 := hinj (hcancel _ _ _ hkey)
    have hnd : trimSuffixSlashChars ((goToLower u1.Host).data ++ u1.Path.data)
        = trimSuffixSlashChars ((goToLower u1.Host).data ++ u2.Path.data) := by
      have h0 := congrArg String.data hn
      simp only [normalizedURL] at h0
      rwa [← hhost] at h0
    have hpd : u1.Path.data ≠ u2.Path.data := fun h => hpne (String.ext h)
    have hmap : u1.Path.data.map Char.toLower = u2.Path.data.map Char.toLower := by
      have h0 := congrArg String.data hlow
      simpa only [goToLower] using h0
    have hlen : u1.Path.data.length = u2.Path.data.length := by
      have h0 := congrArg List.length hmap
      simpa using h0
    set lh := (goToLower u1.Host).data with hlh
    set p1 := u1.Path.data with hp1
    set p2 := u2.Path.data with hp2
    have hLne : lh ++ p1 ≠ lh ++ p2 := fun h => hpd (List.append_cancel_left h)
    by_cases hnil : p1 = []
    · have hnil2 : p2 = [] := by
        rw [hnil] at hlen
        exact List.length_eq_zero.1 hlen.symm
      exact hpd (hnil.trans hnil2.symm)
    · have hnil2 : p2 ≠ [] := by
        intro h
        rw [h] at hlen
        exact hnil (List.length_eq_zero.1 hlen)
      have hg1 : (lh ++ p1).getLast? = p1.getLast? := by
        rw [List.getLast?_append, List.getLast?_eq_getLast p1 hnil]
        rfl
      have hg2 : (lh ++ p2).getLast? = p2.getLast? := by
        rw [List.getLast?_append, List.getLast?_eq_getLast p2 hnil2]
        rfl
      have hsliff : (p1.getLast? = some '/') ↔ (p2.getLast? = some '/') := by
        rw [← map_toLower_getLast_slash (l := p1), ← map_toLower_getLast_slash (l := p2), hmap]
      rw [trimSuffixSlashChars, trimSuffixSlashChars, hg1, hg2] at hnd
      by_cases hsl : p1.getLast? = some '/'
      · have hsl2 : p2.getLast? = some '/' := hsliff.1 hsl
        rw [if_pos hsl, if_pos hsl2] at hnd
        have e1 : (lh ++ p1).dropLast ++ ['/'] = lh ++ p1 :=
          List.dropLast_append_getLast? '/' (by rw [hg1]; exact hsl)
        have e2 : (lh ++ p2).dropLast ++ ['/'] = lh ++ p2 :=
          List.dropLast_append_getLast? '/' (by rw [hg2]; exact hsl2)
        apply hLne
        rw [← e1, ← e2, hnd]
      · have hsl2 : ¬ p2.getLast? = some '/' := fun h => hsl (hsliff.2 h)
        rw [if_neg hsl, if_neg hsl2] at hnd
        exact hLne hnd

/-- Claim C6 (counterexample): removing one trailing slash from the path
`/a//` gives `/a/`, yet the two normalized URLs — hence the two keys, shown
for the identity digest and holding for any injective digest — differ, so
key invariance under removing one trailing slash fails for paths ending in
a double slash. -/
theorem trailing_slash_not_always_key_invariant :
    (⟨"http", "", "example.com", "/a//", "", ""⟩ : GoURL).Path
        = (⟨"http", "", "example.com", "/a/", "", ""⟩ : GoURL).Path ++ "/" ∧
    normalizedURL ⟨"http", "", "example.com", "/a//", "", ""⟩
        ≠ normalizedURL ⟨"http", "", "example.com", "/a/", "", ""⟩ ∧
    generateKey (fun s => s) ⟨"http", "", "example.com", "/a//", "", ""⟩
        ≠ generateKey (fun s => s) ⟨"http", "", "example.com", "/a/", "", ""⟩ :=
  ⟨by decide, by decide, by decide⟩

/-- Witness for C6: the claim's own example pair shares a key, and a
path-case pair separates. -/
theorem cache_key_normalization_witness :
    Function.Injective (fun s : String => s) ∧
    generateKey (fun s => s) ⟨"HTTP", "", "Example.com", "/a/", "", ""⟩
      = generateKey (fun s => s) ⟨"http", "", "example.com", "/a/", "", ""⟩ ∧
    generateKey (fun s => s) ⟨"HTTP", "", "Example.com", "/a/", "", ""⟩
      = generateKey (fun s => s) ⟨"http", "", "example.com", "/a", "", ""⟩ ∧
    generateKey (fun s => s) ⟨"http", "", "example.com", "/A", "", ""⟩
      ≠ generateKey (fun s => s) ⟨"http", "", "example.com", "/a", "", ""⟩ :=
  have hinj : Function.Injective (fun s : String => s) := fun _ _ h => h
  ⟨hinj,
    (cache_key_normalization _ hinj).1 _ _ (by decide) rfl,
    by decide,
    (cache_key_normalization _ hinj).2.2 _ _ rfl (by decide) (by decide)⟩
